import Mathlib

/-!
# Verification of the lnb-server post-processing engine

Shallow embedding of `src/post_process.py` (Lightning-N-a-Bottle server):
the `Packet` and `Strike` data model, the strike-clustering pass
`PostProcess.identify_strikes`, the node registry built in
`PostProcess.read_csvs`, and the aggregation passes `generate_bar` and
`generate_scatter`.

Modelling conventions:
* Python floats (epoch times, GPS coordinates, distances) are embedded as
  exact rationals `ℚ`; every numeric boundary in the source (`0.5`, `40`)
  is exactly representable in binary floating point, so rational
  arithmetic is faithful at the boundaries the claims are about.
* A CSV row is a `Record`.  The source stores the UTC timestamp as a
  string and derives `day/hour/minute/second` by slicing
  (`utc[8:10]`, `utc[11:13]`, ...) and the epoch time `ep2` by
  `datetime.timestamp(strptime(utc))`; the embedding carries these
  derived components directly as fields of the `Record`.
* `strikes[-1].packet_list.append(...)` on an empty `strikes` list raises
  `IndexError` in Python; the clustering pass is therefore embedded in
  `Option`, with `none` as the error outcome.
-/

/-- `STRIKE_TIME: float = .5` — the clustering time threshold in seconds. -/
def STRIKE_TIME : ℚ := 1/2

/-- One input row of the merged, time-sorted dataframe
(`UTC_Time, Epoch_Time, GPS_Latitude, GPS_Longitude, Distance`).
`ep` is the epoch time `ep2` computed from the UTC string; `day`, `hour`,
`minute`, `second` are the components sliced out of the UTC string. -/
structure Record where
  ep : ℚ
  day : ℕ
  hour : ℕ
  minute : ℕ
  second : ℕ
  lat : ℚ
  lon : ℚ
  dis : ℚ
  deriving DecidableEq, Repr

/-- The Python `Packet` class: gps coordinates of the node plus the
recorded strike distance. -/
structure Packet where
  gps_lat : ℚ
  gps_long : ℚ
  distance : ℚ
  deriving DecidableEq, Repr

/-- `Packet.__init__`: `self.distance = min(dis, 40)`. -/
def Packet.make (lat lon dis : ℚ) : Packet :=
  { gps_lat := lat, gps_long := lon, distance := min dis 40 }

/-- `Packet.is_disturber`: `return self.distance >= 40`. -/
def Packet.is_disturber (p : Packet) : Bool :=
  if p.distance ≥ 40 then true else false

/-- The packet built from record `r` in `identify_strikes`. -/
def Record.packet (r : Record) : Packet :=
  Packet.make r.lat r.lon r.dis

/-- The Python `Strike` class.  The source stores the anchor UTC string and
the `day/hour/minute/second` values sliced from it; `ep` is the epoch time
of the record that opened the cluster (the value `ep2` at creation, which
the source keeps in `ep1` while the strike is current — the spec's
`anchor_time`). -/
structure Strike where
  ep : ℚ
  day : ℕ
  hour : ℕ
  minute : ℕ
  second : ℕ
  packet_list : List Packet
  deriving DecidableEq, Repr

/-- `Strike(utc)`: a fresh strike anchored at record `r`, with an empty
packet list (the packet is appended right after creation). -/
def Record.strike (r : Record) : Strike :=
  { ep := r.ep, day := r.day, hour := r.hour, minute := r.minute,
    second := r.second, packet_list := [] }

/-- The mutable state of `PostProcess` threaded through
`identify_strikes`: the anchor epoch `ep1`, the strikes list, and the
valid/disturber packet counters. -/
structure ClusterState where
  ep1 : ℚ
  strikes : List Strike
  valid_packets : ℕ
  disturber_packets : ℕ
  deriving DecidableEq, Repr

/-- The initial state: `ep1 = 0`, empty strikes list, zero counters. -/
def initState : ClusterState :=
  { ep1 := 0, strikes := [], valid_packets := 0, disturber_packets := 0 }

/-- `self.strikes[len(self.strikes)-1].packet_list.append(pack)`:
append `p` to the last strike's packet list; `none` when the list is
empty (Python raises `IndexError` on `strikes[-1]`). -/
def appendLast : List Strike → Packet → Option (List Strike)
  | [], _ => none
  | [s], p => some [{ s with packet_list := s.packet_list ++ [p] }]
  | s :: s' :: rest, p => (appendLast (s' :: rest) p).map (s :: ·)

/-- One iteration of the `identify_strikes` loop body on record `r`:
skip-and-count when exclusion is on and the packet is a disturber,
otherwise open a new strike when `ep2 - ep1 > STRIKE_TIME` and append the
packet to the last strike. -/
def clusterStep (exclude : Bool) (st : ClusterState) (r : Record) :
    Option ClusterState :=
  if exclude ∧ r.packet.is_disturber then
    some { st with disturber_packets := st.disturber_packets + 1 }
  else if r.ep - st.ep1 > STRIKE_TIME then
    (appendLast (st.strikes ++ [r.strike]) r.packet).map
      (fun l => { st with ep1 := r.ep, strikes := l,
                          valid_packets := st.valid_packets + 1 })
  else
    (appendLast st.strikes r.packet).map
      (fun l => { st with strikes := l,
                          valid_packets := st.valid_packets + 1 })

/-- The `while i < len(self.sum_df)` loop of `identify_strikes`. -/
def runCluster (exclude : Bool) : ClusterState → List Record →
    Option ClusterState
  | st, [] => some st
  | st, r :: rs => match clusterStep exclude st r with
    | none => none
    | some st' => runCluster exclude st' rs

/-- `PostProcess.identify_strikes` on the sorted record sequence,
parametrised by the `EXCLUDE_DISTURBERS` flag (`False` in the source). -/
def identifyStrikes (exclude : Bool) (recs : List Record) :
    Option ClusterState :=
  runCluster exclude initState recs

/-! ## Node registry (`PostProcess.read_csvs`, lines 206–215)

The source keys nodes by the string `f"({lat},{lon})"`.  Python's float
`repr` is injective on float values, so two rows produce the same key
string iff their coordinate pairs are equal; the embedding therefore uses
the coordinate pair itself as the key. -/

/-- The node key `f"({lat},{lon})"` of a record. -/
def Record.gps (r : Record) : ℚ × ℚ := (r.lat, r.lon)

/-- The node key `f"({packet.gps_lat},{packet.gps_long})"` of a packet
(`generate_scatter`, line 397). -/
def Packet.gps (p : Packet) : ℚ × ℚ := (p.gps_lat, p.gps_long)

/-- The `while c < len(data)` loop of `read_csvs`: look each row's key up
with `self.nodes.index(gps)` and append it on `ValueError`. -/
def registerNodes : List (ℚ × ℚ) → List Record → List (ℚ × ℚ)
  | nodes, [] => nodes
  | nodes, r :: rs =>
      registerNodes (if r.gps ∈ nodes then nodes else nodes ++ [r.gps]) rs

/-- The `self.nodes` list built by `read_csvs` from the sorted rows. -/
def readNodes (recs : List Record) : List (ℚ × ℚ) :=
  registerNodes [] recs

/-- `self.nodes.index(gps)`: index of the first occurrence of a key. -/
def indexOfKey : List (ℚ × ℚ) → (ℚ × ℚ) → ℕ
  | [], _ => 0
  | n :: ns, k => if n = k then 0 else indexOfKey ns k + 1

/-! ## Bar charts (`PostProcess.generate_bar`, lines 305–322) -/

/-- `daily_stk[self.strikes[c].hour] += 1`.  (`List.set` is the Python
list item assignment; the index is in bounds in every use we prove
about.) -/
def bumpHour (b : List ℕ) (h : ℕ) : List ℕ :=
  b.set h (b.getD h 0 + 1)

/-- The inner `while ... day == self.strikes[c].day` loop of
`generate_bar` over one same-day run, starting from the fresh
`daily_stk` list (the source literal has 25 zeros). -/
def dailyBuckets (run : List Strike) : List ℕ :=
  run.foldl (fun b s => bumpHour b s.hour) (List.replicate 25 0)

/-- The maximal consecutive same-day runs of the strikes list, as carved
out by the outer/inner `while` loops of `generate_bar` and
`generate_scatter`: each run is labelled with its `day` value. -/
def runsOf : List Strike → List (ℕ × List Strike)
  | [] => []
  | s :: rest =>
      (s.day, s :: rest.takeWhile (fun t => t.day == s.day)) ::
        runsOf (rest.dropWhile (fun t => t.day == s.day))
termination_by l => l.length
decreasing_by
  simpa [Nat.lt_succ_iff] using
    (List.dropWhile_sublist (l := rest) (fun t => t.day == s.day)).length_le

/-- The `(day, daily_stk)` data behind each per-day bar chart produced by
`generate_bar`. -/
def barCharts (strikes : List Strike) : List (ℕ × List ℕ) :=
  (runsOf strikes).map (fun dr => (dr.1, dailyBuckets dr.2))

/-! ## Scatter plots (`PostProcess.generate_scatter`, lines 383–404) -/

/-- `day_time = strike.second + strike.minute*60 + strike.hour*3600`. -/
def dayTime (s : Strike) : ℕ :=
  s.second + s.minute * 60 + s.hour * 3600

/-- `trip_time = day_time + strike.day*86400`. -/
def tripTime (s : Strike) : ℕ :=
  dayTime s + s.day * 86400

/-- `ls[i].append(x)` on a Python list of lists. -/
def appendAt {α : Type} (ls : List (List α)) (i : ℕ) (x : α) :
    List (List α) :=
  ls.set i (ls.getD i [] ++ [x])

/-- The per-node series built by `generate_scatter`'s
`for packet in strike.packet_list` loop: starting from one empty list per
node, append `f strike packet` to the list at
`self.nodes.index(gps(packet))`, for every packet of every strike in
order.  Instantiated with `f = trip_time`/`day_time` for the `tot_tm` and
`daily_tm` time series and with the packet distance for `tot_stk` and
`daily_stk`. -/
def seriesOf {α : Type} (f : Strike → Packet → α) (nodes : List (ℚ × ℚ))
    (strikes : List Strike) : List (List α) :=
  strikes.foldl
    (fun acc s => s.packet_list.foldl
      (fun a p => appendAt a (indexOfKey nodes p.gps) (f s p)) acc)
    (nodes.map fun _ => [])

/-- The `tot_tm` per-node cumulative time series. -/
def totTm : List (ℚ × ℚ) → List Strike → List (List ℕ) :=
  seriesOf (fun s _ => tripTime s)

/-- The `tot_stk` per-node cumulative distance series. -/
def totStk : List (ℚ × ℚ) → List Strike → List (List ℚ) :=
  seriesOf (fun _ p => p.distance)

/-- The `daily_tm` per-node time series of one same-day run. -/
def dailyTm : List (ℚ × ℚ) → List Strike → List (List ℕ) :=
  seriesOf (fun s _ => dayTime s)

/-- The concatenation of all strikes' packet lists, in order. -/
def allPackets (l : List Strike) : List Packet :=
  (l.map Strike.packet_list).flatten

/-! ## Helper lemmas -/

lemma appendLast_eq (l : List Strike) (p : Packet) (h : l ≠ []) :
    appendLast l p = some (l.dropLast ++
      [{ l.getLast h with
          packet_list := (l.getLast h).packet_list ++ [p] }]) := by
  induction l with
  | nil => exact absurd rfl h
  | cons s rest ih =>
    cases rest with
    | nil => simp [appendLast]
    | cons s' rest' =>
      simp [appendLast, ih (by simp), List.getLast_cons]

lemma appendLast_isSome (l : List Strike) (p : Packet) (h : l ≠ []) :
    ∃ l', appendLast l p = some l' := ⟨_, appendLast_eq l p h⟩

lemma appendLast_ne_none (l : List Strike) (p : Packet) (h : l ≠ []) :
    appendLast l p ≠ none := by
  rw [appendLast_eq l p h]; simp

lemma appendLast_ne_nil (l : List Strike) (p : Packet) (l' : List Strike)
    (h : appendLast l p = some l') : l' ≠ [] := by
  cases l with
  | nil => simp [appendLast] at h
  | cons s rest =>
    rw [appendLast_eq _ _ (by simp)] at h
    simp at h
    simp [← h]

lemma appendLast_allPackets (l : List Strike) (p : Packet)
    (l' : List Strike) (h : appendLast l p = some l') :
    allPackets l' = allPackets l ++ [p] := by
  cases l with
  | nil => simp [appendLast] at h
  | cons s rest =>
    rw [appendLast_eq _ _ (by simp)] at h
    simp only [Option.some.injEq] at h
    subst h
    conv_rhs => rw [← List.dropLast_append_getLast
      (show s :: rest ≠ [] by simp)]
    simp [allPackets]

lemma appendLast_map_ep (l : List Strike) (p : Packet) (l' : List Strike)
    (h : appendLast l p = some l') :
    l'.map Strike.ep = l.map Strike.ep := by
  cases l with
  | nil => simp [appendLast] at h
  | cons s rest =>
    rw [appendLast_eq _ _ (by simp)] at h
    simp only [Option.some.injEq] at h
    subst h
    conv_rhs => rw [← List.dropLast_append_getLast
      (show s :: rest ≠ [] by simp)]
    simp

lemma clusterStep_false_some (st : ClusterState) (r : Record)
    (st' : ClusterState) (h : clusterStep false st r = some st') :
    st'.valid_packets = st.valid_packets + 1 ∧
    st'.disturber_packets = st.disturber_packets ∧
    allPackets st'.strikes = allPackets st.strikes ++ [r.packet] := by
  unfold clusterStep at h
  rw [if_neg (by simp)] at h
  by_cases hgt : r.ep - st.ep1 > STRIKE_TIME
  · rw [if_pos hgt, Option.map_eq_some'] at h
    obtain ⟨l, hl, hst⟩ := h
    subst hst
    refine ⟨rfl, rfl, ?_⟩
    have := appendLast_allPackets _ _ _ hl
    simpa [allPackets, Record.strike] using this
  · rw [if_neg hgt, Option.map_eq_some'] at h
    obtain ⟨l, hl, hst⟩ := h
    subst hst
    exact ⟨rfl, rfl, appendLast_allPackets _ _ _ hl⟩

lemma runCluster_false_partition (recs : List Record) :
    ∀ st st', runCluster false st recs = some st' →
      st'.valid_packets = st.valid_packets + recs.length ∧
      st'.disturber_packets = st.disturber_packets ∧
      allPackets st'.strikes =
        allPackets st.strikes ++ recs.map Record.packet := by
  induction recs with
  | nil => intro st st' h; simp [runCluster] at h; simp [h]
  | cons r rs ih =>
    intro st st' h
    unfold runCluster at h
    revert h
    cases hstep : clusterStep false st r with
    | none => intro h; exact absurd h (by simp)
    | some st₁ =>
      intro h
      obtain ⟨hv, hd, hp⟩ := clusterStep_false_some st r st₁ hstep
      obtain ⟨hv', hd', hp'⟩ := ih st₁ st' h
      refine ⟨?_, ?_, ?_⟩
      · rw [hv', hv]; simp; ring
      · rw [hd', hd]
      · rw [hp', hp]; simp

lemma clusterStep_disturber (st : ClusterState) (r : Record)
    (hd : r.packet.is_disturber = true) :
    clusterStep true st r =
      some { st with disturber_packets := st.disturber_packets + 1 } := by
  unfold clusterStep
  rw [if_pos ⟨rfl, hd⟩]

lemma clusterStep_nondist (e : Bool) (st : ClusterState) (r : Record)
    (hd : r.packet.is_disturber = false) :
    clusterStep e st r =
      if r.ep - st.ep1 > STRIKE_TIME then
        (appendLast (st.strikes ++ [r.strike]) r.packet).map
          (fun l => { st with ep1 := r.ep, strikes := l,
                              valid_packets := st.valid_packets + 1 })
      else
        (appendLast st.strikes r.packet).map
          (fun l => { st with strikes := l,
                              valid_packets := st.valid_packets + 1 }) := by
  unfold clusterStep
  rw [if_neg (by simp [hd])]

lemma runCluster_exclusion (recs : List Record) :
    ∀ st st' : ClusterState, st.ep1 = st'.ep1 → st.strikes = st'.strikes →
      (runCluster true st recs).map (fun x => (x.ep1, x.strikes)) =
        (runCluster false st'
            (recs.filter (fun r => !r.packet.is_disturber))).map
          (fun x => (x.ep1, x.strikes)) := by
  induction recs with
  | nil =>
    intro st st' he hs
    simp [runCluster, he, hs]
  | cons r rs ih =>
    intro st st' he hs
    by_cases hd : r.packet.is_disturber
    · rw [List.filter_cons_of_neg (by simp [hd])]
      have hred : runCluster true st (r :: rs) =
          runCluster true
            { st with disturber_packets := st.disturber_packets + 1 } rs := by
        simp only [runCluster, clusterStep_disturber st r hd]
      rw [hred]
      exact ih _ _ he hs
    · rw [List.filter_cons_of_pos (by simp [hd])]
      have hd' : r.packet.is_disturber = false := by simpa using hd
      by_cases hgt : r.ep - st.ep1 > STRIKE_TIME
      · have hgt' : r.ep - st'.ep1 > STRIKE_TIME := by rwa [← he]
        cases happ : appendLast (st.strikes ++ [r.strike]) r.packet with
        | none =>
          have h1 : runCluster true st (r :: rs) = none := by
            simp only [runCluster, clusterStep_nondist true st r hd',
              if_pos hgt, happ, Option.map_none']
          have h2 : runCluster false st' (r :: List.filter
              (fun x => !x.packet.is_disturber) rs) = none := by
            simp only [runCluster, clusterStep_nondist false st' r hd',
              if_pos hgt', ← hs, happ, Option.map_none']
          rw [h1, h2]
        | some l =>
          have h1 : runCluster true st (r :: rs) = runCluster true
              { st with ep1 := r.ep, strikes := l,
                        valid_packets := st.valid_packets + 1 } rs := by
            simp only [runCluster, clusterStep_nondist true st r hd',
              if_pos hgt, happ, Option.map_some']
          have h2 : runCluster false st' (r :: List.filter
                (fun x => !x.packet.is_disturber) rs) = runCluster false
              { st' with ep1 := r.ep, strikes := l,
                         valid_packets := st'.valid_packets + 1 }
              (List.filter (fun x => !x.packet.is_disturber) rs) := by
            simp only [runCluster, clusterStep_nondist false st' r hd',
              if_pos hgt', ← hs, happ, Option.map_some']
          rw [h1, h2]
          exact ih { st with ep1 := r.ep, strikes := l,
                             valid_packets := st.valid_packets + 1 }
            { st' with ep1 := r.ep, strikes := l,
                       valid_packets := st'.valid_packets + 1 } rfl rfl
      · have hgt' : ¬ r.ep - st'.ep1 > STRIKE_TIME := by rwa [← he]
        cases happ : appendLast st.strikes r.packet with
        | none =>
          have h1 : runCluster true st (r :: rs) = none := by
            simp only [runCluster, clusterStep_nondist true st r hd',
              if_neg hgt, happ, Option.map_none']
          have h2 : runCluster false st' (r :: List.filter
              (fun x => !x.packet.is_disturber) rs) = none := by
            simp only [runCluster, clusterStep_nondist false st' r hd',
              if_neg hgt', ← hs, happ, Option.map_none']
          rw [h1, h2]
        | some l =>
          have h1 : runCluster true st (r :: rs) = runCluster true
              { st with strikes := l,
                        valid_packets := st.valid_packets + 1 } rs := by
            simp only [runCluster, clusterStep_nondist true st r hd',
              if_neg hgt, happ, Option.map_some']
          have h2 : runCluster false st' (r :: List.filter
                (fun x => !x.packet.is_disturber) rs) = runCluster false
              { st' with strikes := l,
                         valid_packets := st'.valid_packets + 1 }
              (List.filter (fun x => !x.packet.is_disturber) rs) := by
            simp only [runCluster, clusterStep_nondist false st' r hd',
              if_neg hgt', ← hs, happ, Option.map_some']
          rw [h1, h2]
          exact ih { st with strikes := l,
                             valid_packets := st.valid_packets + 1 }
            { st' with strikes := l,
                       valid_packets := st'.valid_packets + 1 }
            (by simpa using he) rfl

/-! ## Claim theorems -/

/-- C3.  Disturber cap: the constructed `Packet` stores `min(raw, 40)`;
a raw distance `≥ 40` is stored as exactly `40` and classified as a
disturber, while a raw distance `< 40` is stored unchanged and is not a
disturber. -/
theorem packet_distance_cap (lat lon dis : ℚ) :
    (Packet.make lat lon dis).distance = min dis 40 ∧
    (40 ≤ dis → (Packet.make lat lon dis).distance = 40 ∧
      (Packet.make lat lon dis).is_disturber = true) ∧
    (dis < 40 → (Packet.make lat lon dis).distance = dis ∧
      (Packet.make lat lon dis).is_disturber = false) := by
  refine ⟨rfl, fun h40 => ⟨?_, ?_⟩, fun hlt => ⟨?_, ?_⟩⟩
  · simp [Packet.make, min_eq_right h40]
  · simp [Packet.make, Packet.is_disturber, min_eq_right h40]
  · simp [Packet.make, min_eq_left hlt.le]
  · simp [Packet.make, Packet.is_disturber, min_eq_left hlt.le]
    exact hlt

/-- Witness for C3 at raw distances `40` (stored as `40`, disturber) and
`39.99` (stored unchanged, not a disturber). -/
theorem packet_distance_cap_witness :
    ((Packet.make 0 0 40).distance = 40 ∧
      (Packet.make 0 0 40).is_disturber = true) ∧
    ((Packet.make 0 0 (3999/100)).distance = 3999/100 ∧
      (Packet.make 0 0 (3999/100)).is_disturber = false) :=
  ⟨(packet_distance_cap 0 0 40).2.1 (by norm_num),
    (packet_distance_cap 0 0 (3999/100)).2.2 (by norm_num)⟩

/-- C1.  Partition: with disturber exclusion disabled, whenever
`identify_strikes` completes, the concatenation of the packet lists of
all produced strikes is exactly the list of packets built from the input
records — no packet is lost, none is duplicated, and each belongs to
exactly one strike. -/
theorem strikes_partition (recs : List Record) (st : ClusterState)
    (h : identifyStrikes false recs = some st) :
    allPackets st.strikes = recs.map Record.packet := by
  have := (runCluster_false_partition recs initState st h).2.2
  simpa [initState, allPackets] using this

/-- Witness for C1 on a concrete two-record input (gap `0.3 s`, one
disturber-range distance): both packets end up in one strike. -/
theorem strikes_partition_witness :
    allPackets (ClusterState.mk 100
        [Strike.mk 100 1 0 0 0 [Packet.mk 2 3 10, Packet.mk 2 3 40]]
        2 0).strikes =
      [Record.mk 100 1 0 0 0 2 3 10,
        Record.mk (1003/10) 1 0 0 0 2 3 41].map Record.packet :=
  strikes_partition _ _ (by
    norm_num [identifyStrikes, runCluster, clusterStep, appendLast,
      initState, STRIKE_TIME, Record.packet, Packet.make,
      Packet.is_disturber, Record.strike])

/-- C10.  Packet-counter semantics: with `EXCLUDE_DISTURBERS = False`
(the source default), after processing `n` records `valid_packets = n`
and `disturber_packets = 0`, even when some records are disturbers —
the counters record the skip decision, not the classification. -/
theorem counters_no_exclusion (recs : List Record) (st : ClusterState)
    (h : identifyStrikes false recs = some st) :
    st.valid_packets = recs.length ∧ st.disturber_packets = 0 := by
  obtain ⟨hv, hd, -⟩ := runCluster_false_partition recs initState st h
  exact ⟨by simpa [initState] using hv, by simpa [initState] using hd⟩

/-- Witness for C10 on a one-record input whose distance `41` makes it a
disturber: it is still counted in `valid_packets`. -/
theorem counters_no_exclusion_witness :
    (ClusterState.mk 1 [Strike.mk 1 1 0 0 0 [Packet.mk 0 0 40]] 1
        0).valid_packets = [Record.mk 1 1 0 0 0 0 0 41].length ∧
      (ClusterState.mk 1 [Strike.mk 1 1 0 0 0 [Packet.mk 0 0 40]] 1
        0).disturber_packets = 0 :=
  counters_no_exclusion _ _ (by
    norm_num [identifyStrikes, runCluster, clusterStep, appendLast,
      initState, STRIKE_TIME, Record.packet, Packet.make,
      Packet.is_disturber, Record.strike])

/-- C8.  Exclusion equivalence: running the clustering pass with
`EXCLUDE_DISTURBERS` enabled produces exactly the same strike sequence
(and the same error outcome) as running it with exclusion disabled on
the order-preserving subsequence of non-disturber records. -/
theorem exclusion_equiv (recs : List Record) :
    (identifyStrikes true recs).map ClusterState.strikes =
      (identifyStrikes false
          (recs.filter (fun r => !r.packet.is_disturber))).map
        ClusterState.strikes := by
  have h := runCluster_exclusion recs initState initState rfl rfl
  have h2 := congrArg (Option.map Prod.snd) h
  simpa [identifyStrikes, Option.map_map, Function.comp] using h2

lemma appendLast_getLast? (l : List Strike) (p : Packet)
    (l' : List Strike) (h : appendLast l p = some l') :
    ∃ s, l.getLast? = some s ∧
      l'.getLast? =
        some { s with packet_list := s.packet_list ++ [p] } ∧
      l'.dropLast = l.dropLast := by
  cases l with
  | nil => simp [appendLast] at h
  | cons a rest =>
    rw [appendLast_eq _ _ (by simp)] at h
    simp only [Option.some.injEq] at h
    subst h
    refine ⟨(a :: rest).getLast (by simp), ?_, ?_, ?_⟩
    · exact List.getLast?_eq_getLast _ _
    · exact List.getLast?_concat _
    · exact List.dropLast_concat

lemma clusterStep_inv (e : Bool) (st : ClusterState) (r : Record)
    (st' : ClusterState) (h : clusterStep e st r = some st')
    (hanch : ∀ s, st.strikes.getLast? = some s → st.ep1 = s.ep)
    (hchain : List.Chain' (· ≤ ·) (st.strikes.map Strike.ep)) :
    (∀ s, st'.strikes.getLast? = some s → st'.ep1 = s.ep) ∧
    List.Chain' (· ≤ ·) (st'.strikes.map Strike.ep) := by
  unfold clusterStep at h
  by_cases hd : (e : Prop) ∧ (r.packet.is_disturber : Prop)
  · rw [if_pos hd] at h
    simp only [Option.some.injEq] at h
    subst h
    exact ⟨hanch, hchain⟩
  · rw [if_neg hd] at h
    by_cases hgt : r.ep - st.ep1 > STRIKE_TIME
    · rw [if_pos hgt, Option.map_eq_some'] at h
      obtain ⟨l, hl, hst⟩ := h
      subst hst
      obtain ⟨s, hs, hs', hdrop⟩ := appendLast_getLast? _ _ _ hl
      rw [List.getLast?_concat] at hs
      simp only [Option.some.injEq] at hs
      subst hs
      have hmap : l.map Strike.ep =
          st.strikes.map Strike.ep ++ [r.ep] := by
        rw [appendLast_map_ep _ _ _ hl]
        simp [Record.strike]
      constructor
      · intro t ht
        rw [hs'] at ht
        simp only [Option.some.injEq] at ht
        subst ht
        simp [Record.strike]
      · rw [hmap, List.chain'_append]
        refine ⟨hchain, List.chain'_singleton _, ?_⟩
        intro x hx y hy
        simp only [List.head?_cons, Option.mem_def, Option.some.injEq]
          at hy
        subst hy
        rw [List.getLast?_map] at hx
        simp only [Option.mem_def, Option.map_eq_some'] at hx
        obtain ⟨s, hs, hxep⟩ := hx
        subst hxep
        have := hanch s hs
        have h2 : STRIKE_TIME > 0 := by norm_num [STRIKE_TIME]
        linarith
    · rw [if_neg hgt, Option.map_eq_some'] at h
      obtain ⟨l, hl, hst⟩ := h
      subst hst
      obtain ⟨s, hs, hs', hdrop⟩ := appendLast_getLast? _ _ _ hl
      constructor
      · intro t ht
        rw [hs'] at ht
        simp only [Option.some.injEq] at ht
        subst ht
        exact hanch s hs
      · rw [appendLast_map_ep _ _ _ hl]
        exact hchain

lemma runCluster_inv (e : Bool) (recs : List Record) :
    ∀ st st' : ClusterState,
      (∀ s, st.strikes.getLast? = some s → st.ep1 = s.ep) →
      List.Chain' (· ≤ ·) (st.strikes.map Strike.ep) →
      runCluster e st recs = some st' →
      (∀ s, st'.strikes.getLast? = some s → st'.ep1 = s.ep) ∧
      List.Chain' (· ≤ ·) (st'.strikes.map Strike.ep) := by
  induction recs with
  | nil =>
    intro st st' hanch hchain h
    simp only [runCluster, Option.some.injEq] at h
    subst h
    exact ⟨hanch, hchain⟩
  | cons r rs ih =>
    intro st st' hanch hchain h
    unfold runCluster at h
    revert h
    cases hstep : clusterStep e st r with
    | none => intro h; exact absurd h (by simp)
    | some st₁ =>
      intro h
      obtain ⟨ha, hc⟩ := clusterStep_inv e st r st₁ hstep hanch hchain
      exact ih st₁ st' ha hc h

/-- C4.  Ordering: for every input record sequence in non-decreasing
time order, the strikes produced by `identify_strikes` (with either
exclusion setting) have non-decreasing anchor times. -/
theorem strikes_sorted (exclude : Bool) (recs : List Record)
    (st : ClusterState)
    (_hsort : List.Chain' (fun a b => a.ep ≤ b.ep) recs)
    (h : identifyStrikes exclude recs = some st) :
    List.Chain' (· ≤ ·) (st.strikes.map Strike.ep) :=
  (runCluster_inv exclude recs initState st (by simp [initState])
    (by simp [initState]) h).2

/-- Witness for C4 on a concrete sorted three-record input producing two
strikes. -/
theorem strikes_sorted_witness :
    List.Chain' (· ≤ ·)
      ((ClusterState.mk 102
          [Strike.mk 100 1 0 0 0 [Packet.mk 2 3 10, Packet.mk 2 3 11],
            Strike.mk 102 1 0 0 0 [Packet.mk 2 3 12]]
          3 0).strikes.map Strike.ep) :=
  strikes_sorted false
    [Record.mk 100 1 0 0 0 2 3 10, Record.mk 100 1 0 0 0 2 3 11,
      Record.mk 102 1 0 0 0 2 3 12] _
    (by norm_num [List.chain'_cons])
    (by norm_num [identifyStrikes, runCluster, clusterStep, appendLast,
      initState, STRIKE_TIME, Record.packet, Packet.make,
      Packet.is_disturber, Record.strike])

/-- C2.  Threshold boundary: in any state reached by `identify_strikes`
(exclusion disabled) whose strikes list is non-empty, the loop's anchor
`ep1` equals the anchor time of the current (last) strike; an incoming
record whose gap from that anchor is at most `STRIKE_TIME` (in
particular, exactly equal to it) merges into the current strike, while a
strictly greater gap opens a new strike anchored at the record's time.
The gap is measured from the cluster's anchor, never from the previous
packet. -/
theorem threshold_boundary (recs : List Record) (st : ClusterState)
    (r : Record) (h : identifyStrikes false recs = some st)
    (hne : st.strikes ≠ []) :
    ∃ cur, st.strikes.getLast? = some cur ∧ st.ep1 = cur.ep ∧
      (r.ep - cur.ep ≤ STRIKE_TIME →
        ∃ st', clusterStep false st r = some st' ∧
          st'.ep1 = st.ep1 ∧
          st'.strikes.dropLast = st.strikes.dropLast ∧
          st'.strikes.getLast? =
            some { cur with
              packet_list := cur.packet_list ++ [r.packet] }) ∧
      (r.ep - cur.ep > STRIKE_TIME →
        ∃ st', clusterStep false st r = some st' ∧ st'.ep1 = r.ep ∧
          st'.strikes.dropLast = st.strikes ∧
          st'.strikes.getLast? =
            some { r.strike with packet_list := [r.packet] }) := by
  have hanch := (runCluster_inv false recs initState st
    (by simp [initState]) (by simp [initState]) h).1
  refine ⟨st.strikes.getLast hne, List.getLast?_eq_getLast _ _, ?_, ?_, ?_⟩
  · exact hanch _ (List.getLast?_eq_getLast _ _)
  · intro hle
    have hcur := hanch _ (List.getLast?_eq_getLast st.strikes hne)
    have hgt : ¬ r.ep - st.ep1 > STRIKE_TIME := by
      rw [hcur]; linarith
    obtain ⟨l, hl⟩ := appendLast_isSome st.strikes r.packet hne
    refine ⟨{ st with strikes := l, valid_packets := st.valid_packets + 1 }, ?_, rfl, ?_, ?_⟩
    · unfold clusterStep
      rw [if_neg (by simp), if_neg hgt, hl, Option.map_some']
    · obtain ⟨s, hs, hs', hdrop⟩ := appendLast_getLast? _ _ _ hl
      exact hdrop
    · obtain ⟨s, hs, hs', hdrop⟩ := appendLast_getLast? _ _ _ hl
      rw [List.getLast?_eq_getLast st.strikes hne] at hs
      simp only [Option.some.injEq] at hs
      subst hs
      exact hs'
  · intro hgt'
    have hcur := hanch _ (List.getLast?_eq_getLast st.strikes hne)
    have hgt : r.ep - st.ep1 > STRIKE_TIME := by rw [hcur]; linarith
    obtain ⟨l, hl⟩ := appendLast_isSome (st.strikes ++ [r.strike])
      r.packet (by simp)
    refine ⟨{ st with ep1 := r.ep, strikes := l, valid_packets := st.valid_packets + 1 }, ?_, rfl, ?_, ?_⟩
    · unfold clusterStep
      rw [if_neg (by simp), if_pos hgt, hl, Option.map_some']
    · obtain ⟨s, hs, hs', hdrop⟩ := appendLast_getLast? _ _ _ hl
      simpa using hdrop
    · obtain ⟨s, hs, hs', hdrop⟩ := appendLast_getLast? _ _ _ hl
      rw [List.getLast?_concat] at hs
      simp only [Option.some.injEq] at hs
      subst hs
      simpa [Record.strike] using hs'

/-- Witness for C2: after one record at epoch `100`, a record at epoch
`100.5` (gap exactly `STRIKE_TIME`) merges, while a strictly greater gap
would open a new strike. -/
theorem threshold_boundary_witness :
    ∃ cur,
      (ClusterState.mk 100 [Strike.mk 100 1 0 0 0 [Packet.mk 2 3 10]] 1
          0).strikes.getLast? = some cur ∧
      (ClusterState.mk 100 [Strike.mk 100 1 0 0 0 [Packet.mk 2 3 10]] 1
          0).ep1 = cur.ep ∧
      ((Record.mk (201/2) 1 0 0 0 2 3 11).ep - cur.ep ≤ STRIKE_TIME →
        ∃ st', clusterStep false
            (ClusterState.mk 100
              [Strike.mk 100 1 0 0 0 [Packet.mk 2 3 10]] 1 0)
            (Record.mk (201/2) 1 0 0 0 2 3 11) = some st' ∧
          st'.ep1 = (ClusterState.mk 100
            [Strike.mk 100 1 0 0 0 [Packet.mk 2 3 10]] 1 0).ep1 ∧
          st'.strikes.dropLast = (ClusterState.mk 100
            [Strike.mk 100 1 0 0 0 [Packet.mk 2 3 10]] 1
            0).strikes.dropLast ∧
          st'.strikes.getLast? =
            some { cur with packet_list := cur.packet_list ++
              [(Record.mk (201/2) 1 0 0 0 2 3 11).packet] }) ∧
      ((Record.mk (201/2) 1 0 0 0 2 3 11).ep - cur.ep > STRIKE_TIME →
        ∃ st', clusterStep false
            (ClusterState.mk 100
              [Strike.mk 100 1 0 0 0 [Packet.mk 2 3 10]] 1 0)
            (Record.mk (201/2) 1 0 0 0 2 3 11) = some st' ∧
          st'.ep1 = (Record.mk (201/2) 1 0 0 0 2 3 11).ep ∧
          st'.strikes.dropLast = (ClusterState.mk 100
            [Strike.mk 100 1 0 0 0 [Packet.mk 2 3 10]] 1 0).strikes ∧
          st'.strikes.getLast? =
            some { (Record.mk (201/2) 1 0 0 0 2 3 11).strike with
              packet_list :=
                [(Record.mk (201/2) 1 0 0 0 2 3 11).packet] }) :=
  threshold_boundary [Record.mk 100 1 0 0 0 2 3 10]
    (ClusterState.mk 100 [Strike.mk 100 1 0 0 0 [Packet.mk 2 3 10]] 1 0)
    (Record.mk (201/2) 1 0 0 0 2 3 11)
    (by norm_num [identifyStrikes, runCluster, clusterStep, appendLast,
      initState, STRIKE_TIME, Record.packet, Packet.make,
      Packet.is_disturber, Record.strike])
    (by simp)

lemma clusterStep_total (e : Bool) (st : ClusterState) (r : Record)
    (hne : st.strikes ≠ []) : ∃ st', clusterStep e st r = some st' := by
  unfold clusterStep
  by_cases hd : (e : Prop) ∧ (r.packet.is_disturber : Prop)
  · rw [if_pos hd]; exact ⟨_, rfl⟩
  · rw [if_neg hd]
    by_cases hgt : r.ep - st.ep1 > STRIKE_TIME
    · rw [if_pos hgt]
      obtain ⟨l, hl⟩ := appendLast_isSome (st.strikes ++ [r.strike])
        r.packet (by simp)
      exact ⟨_, by rw [hl, Option.map_some']⟩
    · rw [if_neg hgt]
      obtain ⟨l, hl⟩ := appendLast_isSome st.strikes r.packet hne
      exact ⟨_, by rw [hl, Option.map_some']⟩

lemma appendLast_head_data (l : List Strike) (p : Packet)
    (l' : List Strike) (h : appendLast l p = some l')
    (hpl : ∀ s ∈ l, s.packet_list ≠ []) :
    l'.head?.map (fun s => (s.ep, s.packet_list.head?)) =
      l.head?.map (fun s => (s.ep, s.packet_list.head?)) := by
  match l with
  | [] => simp [appendLast] at h
  | [s] =>
    simp only [appendLast, Option.some.injEq] at h
    subst h
    have hs : s.packet_list ≠ [] := hpl s (by simp)
    cases hp : s.packet_list with
    | nil => exact absurd hp hs
    | cons a as => simp [hp]
  | s :: s' :: rest =>
    simp only [appendLast, Option.map_eq_some'] at h
    obtain ⟨t, ht, hl'⟩ := h
    subst hl'
    simp

lemma appendLast_pl (l : List Strike) (p : Packet) (l' : List Strike)
    (h : appendLast l p = some l')
    (hpl : ∀ s ∈ l.dropLast, s.packet_list ≠ []) :
    ∀ s ∈ l', s.packet_list ≠ [] := by
  cases l with
  | nil => simp [appendLast] at h
  | cons a rest =>
    rw [appendLast_eq _ _ (by simp)] at h
    simp only [Option.some.injEq] at h
    subst h
    intro s hs
    rw [List.mem_append] at hs
    rcases hs with hs | hs
    · exact hpl s hs
    · simp only [List.mem_singleton] at hs
      subst hs
      simp

lemma clusterStep_preserve (e : Bool) (st : ClusterState) (r : Record)
    (st' : ClusterState) (h : clusterStep e st r = some st')
    (hne : st.strikes ≠ [])
    (hpl : ∀ s ∈ st.strikes, s.packet_list ≠ []) :
    st'.strikes ≠ [] ∧ (∀ s ∈ st'.strikes, s.packet_list ≠ []) ∧
    st'.strikes.head?.map (fun s => (s.ep, s.packet_list.head?)) =
      st.strikes.head?.map (fun s => (s.ep, s.packet_list.head?)) := by
  unfold clusterStep at h
  by_cases hd : (e : Prop) ∧ (r.packet.is_disturber : Prop)
  · rw [if_pos hd] at h
    simp only [Option.some.injEq] at h
    subst h
    exact ⟨hne, hpl, rfl⟩
  · rw [if_neg hd] at h
    by_cases hgt : r.ep - st.ep1 > STRIKE_TIME
    · rw [if_pos hgt, Option.map_eq_some'] at h
      obtain ⟨l, hl, hst⟩ := h
      subst hst
      rw [appendLast_eq _ _ (by simp)] at hl
      simp only [Option.some.injEq] at hl
      subst hl
      rw [List.dropLast_concat, List.getLast_concat]
      refine ⟨by simp, ?_, ?_⟩
      · intro s hs
        rw [List.mem_append] at hs
        rcases hs with hs | hs
        · exact hpl s hs
        · simp only [List.mem_singleton] at hs
          subst hs
          simp
      · cases hstk : st.strikes with
        | nil => exact absurd hstk hne
        | cons a rest => simp
    · rw [if_neg hgt, Option.map_eq_some'] at h
      obtain ⟨l, hl, hst⟩ := h
      subst hst
      refine ⟨appendLast_ne_nil _ _ _ hl, ?_, ?_⟩
      · exact appendLast_pl _ _ _ hl
          (fun s hs => hpl s (List.dropLast_subset _ hs))
      · exact appendLast_head_data _ _ _ hl hpl

lemma runCluster_preserve (e : Bool) (recs : List Record) :
    ∀ st : ClusterState, st.strikes ≠ [] →
      (∀ s ∈ st.strikes, s.packet_list ≠ []) →
      ∃ st', runCluster e st recs = some st' ∧ st'.strikes ≠ [] ∧
        st'.strikes.head?.map (fun s => (s.ep, s.packet_list.head?)) =
          st.strikes.head?.map (fun s => (s.ep, s.packet_list.head?)) := by
  induction recs with
  | nil =>
    intro st hne hpl
    exact ⟨st, by simp [runCluster], hne, rfl⟩
  | cons r rs ih =>
    intro st hne hpl
    obtain ⟨st₁, hstep⟩ := clusterStep_total e st r hne
    obtain ⟨hne₁, hpl₁, hhead₁⟩ :=
      clusterStep_preserve e st r st₁ hstep hne hpl
    obtain ⟨st', hrun, hne', hhead'⟩ := ih st₁ hne₁ hpl₁
    refine ⟨st', ?_, hne', hhead'.trans hhead₁⟩
    simp only [runCluster, hstep]
    exact hrun

/-- C7 counterexample: a non-empty input whose first record has epoch
time `0.5` (not greater than `STRIKE_TIME` above the sentinel anchor
`0`).  The first packet does **not** open a new strike; instead the
append to `strikes[-1]` hits the empty strikes list and the pass fails
(`IndexError` in the source), refuting "regardless of its absolute epoch
time". -/
theorem first_packet_cex :
    identifyStrikes false [Record.mk (1/2) 1 0 0 0 2 3 10] = none := by
  norm_num [identifyStrikes, runCluster, clusterStep, appendLast,
    initState, STRIKE_TIME, Record.packet, Packet.make,
    Packet.is_disturber, Record.strike]

/-- C7 amended.  For every non-empty input sequence whose first record's
epoch time exceeds `STRIKE_TIME` above the sentinel anchor `0` (true of
all real epoch times), the first processed packet opens a new strike —
it stays the first packet of the first strike, anchored at its own epoch
time — and the whole pass completes without ever accessing an empty
strikes list. -/
theorem first_packet_opens (r : Record) (rs : List Record)
    (hr : r.ep > STRIKE_TIME) :
    ∃ st, identifyStrikes false (r :: rs) = some st ∧
      ∃ s0, st.strikes.head? = some s0 ∧ s0.ep = r.ep ∧
        s0.packet_list.head? = some r.packet := by
  have hstep : clusterStep false initState r =
      some (ClusterState.mk r.ep
        [{ r.strike with packet_list := [r.packet] }] 1 0) := by
    unfold clusterStep
    rw [if_neg (by simp),
      if_pos (show r.ep - initState.ep1 > STRIKE_TIME by
        simpa [initState] using hr)]
    simp [appendLast, initState, Record.strike]
  obtain ⟨st', hrun, hne', hhead'⟩ := runCluster_preserve false rs
    (ClusterState.mk r.ep [{ r.strike with packet_list := [r.packet] }]
      1 0)
    (by simp) (by simp)
  refine ⟨st', ?_, ?_⟩
  · simp only [identifyStrikes, runCluster, hstep]
    exact hrun
  · cases hstk : st'.strikes with
    | nil => exact absurd hstk hne'
    | cons s0 tail =>
      rw [hstk] at hhead'
      simp only [List.head?_cons, Option.map_some'] at hhead'
      refine ⟨s0, by simp, ?_, ?_⟩
      · exact congrArg Prod.fst (Option.some.inj hhead')
      · have := congrArg Prod.snd (Option.some.inj hhead')
        simpa [Record.strike] using this

/-- Witness for the amended C7 at a first record with epoch `100`. -/
theorem first_packet_opens_witness :
    ∃ st, identifyStrikes false [Record.mk 100 1 0 0 0 2 3 10] = some st ∧
      ∃ s0, st.strikes.head? = some s0 ∧
        s0.ep = (Record.mk 100 1 0 0 0 2 3 10).ep ∧
        s0.packet_list.head? = some (Record.mk 100 1 0 0 0 2 3 10).packet :=
  first_packet_opens (Record.mk 100 1 0 0 0 2 3 10) []
    (by norm_num [STRIKE_TIME])

lemma indexOfKey_getD (l : List (ℚ × ℚ)) (k : ℚ × ℚ) (h : k ∈ l) :
    l.getD (indexOfKey l k) (0, 0) = k := by
  induction l with
  | nil => simp at h
  | cons n ns ih =>
    by_cases hn : n = k
    · simp [indexOfKey, hn]
    · have hk : k ∈ ns := by
        rcases List.mem_cons.mp h with h' | h'
        · exact absurd h'.symm hn
        · exact h'
      have hidx : indexOfKey (n :: ns) k = indexOfKey ns k + 1 := by
        simp [indexOfKey, hn]
      rw [hidx, List.getD_cons_succ]
      exact ih hk

lemma indexOfKey_inj (l : List (ℚ × ℚ)) (k₁ k₂ : ℚ × ℚ)
    (h₁ : k₁ ∈ l) (h₂ : k₂ ∈ l) (hne : k₁ ≠ k₂) :
    indexOfKey l k₁ ≠ indexOfKey l k₂ := by
  intro heq
  apply hne
  have := indexOfKey_getD l k₁ h₁
  rw [heq, indexOfKey_getD l k₂ h₂] at this
  exact this.symm

lemma registerNodes_subset (recs : List Record) :
    ∀ nodes : List (ℚ × ℚ), nodes ⊆ registerNodes nodes recs := by
  induction recs with
  | nil => intro nodes; simp [registerNodes]
  | cons r rs ih =>
    intro nodes
    unfold registerNodes
    refine List.Subset.trans ?_ (ih _)
    by_cases hg : r.gps ∈ nodes
    · rw [if_pos hg]
      exact fun x hx => hx
    · rw [if_neg hg]
      exact List.subset_append_left _ _


lemma registerNodes_mem (recs : List Record) :
    ∀ nodes : List (ℚ × ℚ), ∀ r ∈ recs,
      r.gps ∈ registerNodes nodes recs := by
  induction recs with
  | nil => intro nodes r hr; simp at hr
  | cons q rs ih =>
    intro nodes r hr
    rcases List.mem_cons.mp hr with hr' | hr'
    · subst hr'
      unfold registerNodes
      refine registerNodes_subset rs _ ?_
      by_cases hg : r.gps ∈ nodes
      · rw [if_pos hg]; exact hg
      · rw [if_neg hg]; simp
    · unfold registerNodes
      exact ih _ r hr'

lemma registerNodes_append (recs more : List Record) :
    ∀ nodes : List (ℚ × ℚ),
      registerNodes nodes (recs ++ more) =
        registerNodes (registerNodes nodes recs) more := by
  induction recs with
  | nil => intro nodes; simp [registerNodes]
  | cons r rs ih =>
    intro nodes
    simp only [List.cons_append]
    rw [show registerNodes nodes (r :: (rs ++ more)) =
        registerNodes (if r.gps ∈ nodes then nodes else nodes ++ [r.gps])
          (rs ++ more) from rfl,
      show registerNodes nodes (r :: rs) =
        registerNodes (if r.gps ∈ nodes then nodes else nodes ++ [r.gps])
          rs from rfl]
    exact ih _

lemma registerNodes_nodup (recs : List Record) :
    ∀ nodes : List (ℚ × ℚ), nodes.Nodup →
      (registerNodes nodes recs).Nodup := by
  induction recs with
  | nil => intro nodes h; exact h
  | cons r rs ih =>
    intro nodes h
    rw [show registerNodes nodes (r :: rs) =
      registerNodes (if r.gps ∈ nodes then nodes else nodes ++ [r.gps])
        rs from rfl]
    refine ih _ ?_
    by_cases hg : r.gps ∈ nodes
    · rwa [if_pos hg]
    · rw [if_neg hg]
      simpa [List.nodup_append] using And.intro h hg

/-- C6.  Node deduplication: node identity is resolved by exact
coordinate equality — records with identical `(lat, lon)` pairs resolve
to the same index in `self.nodes`, records with different pairs (however
close) resolve to different indices, and the registry grows by appending
each first-seen key at the end, never removing or reordering earlier
entries. -/
theorem node_dedup (recs : List Record) :
    (∀ r₁ r₂ : Record, r₁ ∈ recs → r₂ ∈ recs → r₁.gps = r₂.gps →
      indexOfKey (readNodes recs) r₁.gps =
        indexOfKey (readNodes recs) r₂.gps) ∧
    (∀ r₁ r₂ : Record, r₁ ∈ recs → r₂ ∈ recs → r₁.gps ≠ r₂.gps →
      indexOfKey (readNodes recs) r₁.gps ≠
        indexOfKey (readNodes recs) r₂.gps) ∧
    (∀ r : Record, readNodes (recs ++ [r]) =
      if r.gps ∈ readNodes recs then readNodes recs
      else readNodes recs ++ [r.gps]) ∧
    (readNodes recs).Nodup := by
  refine ⟨?_, ?_, ?_, ?_⟩
  · intro r₁ r₂ _ _ heq
    rw [heq]
  · intro r₁ r₂ h₁ h₂ hne
    exact indexOfKey_inj _ _ _ (registerNodes_mem recs [] r₁ h₁)
      (registerNodes_mem recs [] r₂ h₂) hne
  · intro r
    unfold readNodes
    rw [registerNodes_append recs [r] []]
    by_cases hg : r.gps ∈ registerNodes [] recs
    · rw [if_pos hg,
        show registerNodes (registerNodes [] recs) [r] =
          registerNodes (if r.gps ∈ registerNodes [] recs
            then registerNodes [] recs
            else registerNodes [] recs ++ [r.gps]) [] from rfl,
        if_pos hg]
      rfl
    · rw [if_neg hg,
        show registerNodes (registerNodes [] recs) [r] =
          registerNodes (if r.gps ∈ registerNodes [] recs
            then registerNodes [] recs
            else registerNodes [] recs ++ [r.gps]) [] from rfl,
        if_neg hg]
      rfl
  · exact registerNodes_nodup recs [] (by simp)

/-- Witness for C6: two nodes whose latitudes differ only in the 6th
decimal place (`30.617713` vs `30.617714`) get different node ids. -/
theorem node_dedup_witness :
    indexOfKey
        (readNodes [Record.mk 100 1 0 0 0 (30617713/1000000)
            (-96336645/1000000) 10,
          Record.mk 101 1 0 0 0 (30617714/1000000)
            (-96336645/1000000) 11])
        (Record.mk 100 1 0 0 0 (30617713/1000000)
          (-96336645/1000000) 10).gps ≠
      indexOfKey
        (readNodes [Record.mk 100 1 0 0 0 (30617713/1000000)
            (-96336645/1000000) 10,
          Record.mk 101 1 0 0 0 (30617714/1000000)
            (-96336645/1000000) 11])
        (Record.mk 101 1 0 0 0 (30617714/1000000)
          (-96336645/1000000) 11).gps :=
  (node_dedup _).2.1 _ _ (by simp) (by simp)
    (by norm_num [Record.gps, Prod.ext_iff])

lemma bumpHour_length (b : List ℕ) (h : ℕ) :
    (bumpHour b h).length = b.length := by
  simp [bumpHour]

lemma bumpHour_sum (b : List ℕ) (h : ℕ) (hh : h < b.length) :
    (bumpHour b h).sum = b.sum + 1 := by
  induction b generalizing h with
  | nil => simp at hh
  | cons x xs ih =>
    cases h with
    | zero => simp [bumpHour]; ring
    | succ n =>
      have hn : n < xs.length := by simpa using hh
      have : bumpHour (x :: xs) (n + 1) = x :: bumpHour xs n := by
        simp [bumpHour]
      rw [this]
      simp only [List.sum_cons, ih n hn]
      ring

lemma bucketFold_sum (run : List Strike) :
    ∀ b : List ℕ, b.length = 25 → (∀ s ∈ run, s.hour < 25) →
      (run.foldl (fun b s => bumpHour b s.hour) b).sum =
        b.sum + run.length := by
  induction run with
  | nil => intro b _ _; simp
  | cons s rest ih =>
    intro b hb hh
    simp only [List.foldl_cons]
    rw [ih (bumpHour b s.hour) (by rw [bumpHour_length, hb])
      (fun t ht => hh t (by simp [ht]))]
    rw [bumpHour_sum b s.hour (by rw [hb]; exact hh s (by simp))]
    simp [List.length_cons]
    ring

lemma dailyBuckets_sum (run : List Strike)
    (hh : ∀ s ∈ run, s.hour < 25) :
    (dailyBuckets run).sum = run.length := by
  unfold dailyBuckets
  rw [bucketFold_sum run (List.replicate 25 0) (by simp) hh]
  simp

lemma runsOf_flatten (l : List Strike) :
    ((runsOf l).map Prod.snd).flatten = l := by
  induction l using runsOf.induct with
  | case1 => simp [runsOf]
  | case2 s rest ih =>
    rw [runsOf]
    simp only [List.map_cons, List.flatten_cons, ih]
    rw [List.cons_append, List.takeWhile_append_dropWhile]

lemma runsOf_day (l : List Strike) :
    ∀ p ∈ runsOf l, ∀ s ∈ p.2, s.day = p.1 := by
  induction l using runsOf.induct with
  | case1 => simp [runsOf]
  | case2 s rest ih =>
    rw [runsOf]
    intro p hp t ht
    rcases List.mem_cons.mp hp with hp' | hp'
    · subst hp'
      simp only at ht
      rcases List.mem_cons.mp ht with ht' | ht'
      · simp [ht']
      · simpa using List.mem_takeWhile_imp ht'
    · exact ih p hp' t ht

lemma filter_flatten_runs (d : ℕ) :
    ∀ runs : List (ℕ × List Strike),
      (∀ p ∈ runs, ∀ s ∈ p.2, s.day = p.1) →
      ((runs.map Prod.fst).Nodup) →
      ∀ run, (d, run) ∈ runs →
        ((runs.map Prod.snd).flatten.filter
          (fun s => s.day == d)).length = run.length := by
  intro runs
  induction runs with
  | nil => intro _ _ run h; simp at h
  | cons p rest ih =>
    intro hday hnodup run hmem
    obtain ⟨d', run'⟩ := p
    simp only [List.map_cons, List.flatten_cons, List.filter_append,
      List.length_append]
    rcases List.mem_cons.mp hmem with hm | hm
    · obtain ⟨hd', hrun⟩ := Prod.mk.inj hm
      rw [hrun]
      have hall : run'.filter (fun s => s.day == d) = run' := by
        apply List.filter_eq_self.mpr
        intro s hs
        have hsd : s.day = d' := hday (d', run') (by simp) s hs
        simp [hsd, hd']
      rw [hall]
      have hrest : (rest.map Prod.snd).flatten.filter
          (fun s => s.day == d) = [] := by
        apply List.filter_eq_nil_iff.mpr
        intro s hs
        rw [List.mem_flatten] at hs
        obtain ⟨t, ht, hst⟩ := hs
        rw [List.mem_map] at ht
        obtain ⟨q, hq, hqt⟩ := ht
        have hsq : s.day = q.1 := hday q (by simp [hq]) s (hqt ▸ hst)
        have hql : q.1 ≠ d := by
          intro hcontra
          have hmem2 : d ∈ rest.map Prod.fst := by
            rw [List.mem_map]
            exact ⟨q, hq, hcontra⟩
          simp only [List.map_cons, List.nodup_cons] at hnodup
          rw [hd'] at hmem2
          exact hnodup.1 hmem2
        simp [hsq, hql]
      rw [hrest]
      simp
    · have hd'd : d' ≠ d := by
        intro hcontra
        subst hcontra
        have : d' ∈ rest.map Prod.fst := by
          rw [List.mem_map]
          exact ⟨(d', run), hm, rfl⟩
        simp only [List.map_cons, List.nodup_cons] at hnodup
        exact hnodup.1 this
      have hrun' : run'.filter (fun s => s.day == d) = [] := by
        apply List.filter_eq_nil_iff.mpr
        intro s hs
        have : s.day = d' := hday (d', run') (by simp) s hs
        simp [this, hd'd]
      rw [hrun']
      simp only [List.length_nil, Nat.zero_add]
      exact ih (fun q hq => hday q (by simp [hq]))
        (by simpa using (List.nodup_cons.mp (by simpa using hnodup)).2)
        run hm

/-- C9.  Aggregate conservation for hourly bucketing: in `generate_bar`,
for every per-day chart `(d, daily_stk)` (with well-formed hours, and
each day value occupying a single consecutive run, as time-sorted
single-month data guarantees), the bucket counters sum to the number of
strikes whose day is `d` — each strike increments exactly the bucket of
its anchor hour, so bucketing counts strikes, not packets. -/
theorem bar_conservation (strikes : List Strike)
    (hh : ∀ s ∈ strikes, s.hour < 25)
    (hgrouped : ((runsOf strikes).map Prod.fst).Nodup) :
    ∀ d bs, (d, bs) ∈ barCharts strikes →
      bs.sum = (strikes.filter (fun s => s.day == d)).length := by
  intro d bs hmem
  unfold barCharts at hmem
  rw [List.mem_map] at hmem
  obtain ⟨⟨d', run⟩, hrun, heq⟩ := hmem
  obtain ⟨hd, hbs⟩ := Prod.mk.inj heq
  subst hd
  subst hbs
  have hsub : ∀ s ∈ run, s ∈ strikes := by
    intro s hs
    rw [← runsOf_flatten strikes, List.mem_flatten]
    exact ⟨run, by simpa using List.mem_map_of_mem Prod.snd hrun, hs⟩
  rw [dailyBuckets_sum run (fun s hs => hh s (hsub s hs))]
  have := filter_flatten_runs d' (runsOf strikes) (runsOf_day strikes)
    hgrouped run hrun
  rw [runsOf_flatten] at this
  exact this.symm

/-- Witness for C9: two strikes on day 5 (both at hour 3) and one on
day 6 — the day-5 bucket list sums to 2. -/
theorem bar_conservation_witness :
    ([0,0,0,2,0,0,0,0,0,0,0,0,0,0,0,0,0,0,0,0,0,0,0,0,0] : List ℕ).sum =
      ([Strike.mk 100 5 3 0 0 [], Strike.mk 102 5 3 0 0 [],
        Strike.mk 200 6 0 0 0 []].filter
          (fun s => s.day == 5)).length :=
  bar_conservation
    [Strike.mk 100 5 3 0 0 [], Strike.mk 102 5 3 0 0 [],
      Strike.mk 200 6 0 0 0 []]
    (by norm_num)
    (by norm_num [runsOf, List.takeWhile_cons, List.dropWhile_cons])
    5 [0,0,0,2,0,0,0,0,0,0,0,0,0,0,0,0,0,0,0,0,0,0,0,0,0]
    (by norm_num [barCharts, runsOf, List.takeWhile_cons,
      List.dropWhile_cons, dailyBuckets, bumpHour, List.replicate,
      List.set])

lemma mem_getD_flatten {α : Type} (ls : List (List α)) (i : ℕ) (x : α)
    (h : x ∈ ls.getD i []) : x ∈ ls.flatten := by
  by_cases hi : i < ls.length
  · rw [List.getD_eq_getElem ls [] hi] at h
    rw [List.mem_flatten]
    exact ⟨ls[i], List.getElem_mem hi, h⟩
  · rw [List.getD_eq_default ls [] (Nat.le_of_not_lt hi)] at h
    simp at h

lemma appendAt_flatten_mem {α : Type} (ls : List (List α)) (i : ℕ)
    (y x : α) (h : x ∈ (appendAt ls i y).flatten) :
    x ∈ ls.flatten ∨ x = y := by
  unfold appendAt at h
  rw [List.mem_flatten] at h
  obtain ⟨t, ht, hxt⟩ := h
  rcases List.mem_or_eq_of_mem_set ht with ht' | ht'
  · exact Or.inl (List.mem_flatten.mpr ⟨t, ht', hxt⟩)
  · subst ht'
    rcases List.mem_append.mp hxt with hx | hx
    · exact Or.inl (mem_getD_flatten ls i x hx)
    · simp only [List.mem_singleton] at hx
      exact Or.inr hx

lemma packetFold_mem {α : Type} (f : Strike → Packet → α)
    (nodes : List (ℚ × ℚ)) (s : Strike) :
    ∀ (pl : List Packet) (acc : List (List α)) (x : α),
      x ∈ (pl.foldl
        (fun a p => appendAt a (indexOfKey nodes p.gps) (f s p))
        acc).flatten →
      x ∈ acc.flatten ∨ ∃ p ∈ pl, x = f s p := by
  intro pl
  induction pl with
  | nil => intro acc x h; exact Or.inl h
  | cons p ps ih =>
    intro acc x h
    rw [List.foldl_cons] at h
    rcases ih _ x h with h' | h'
    · rcases appendAt_flatten_mem _ _ _ _ h' with h'' | h''
      · exact Or.inl h''
      · exact Or.inr ⟨p, by simp, h''⟩
    · obtain ⟨q, hq, hxq⟩ := h'
      exact Or.inr ⟨q, by simp [hq], hxq⟩

lemma seriesOf_mem {α : Type} (f : Strike → Packet → α)
    (nodes : List (ℚ × ℚ)) :
    ∀ (strikes : List Strike) (acc : List (List α)) (x : α),
      x ∈ (strikes.foldl
        (fun acc s => s.packet_list.foldl
          (fun a p => appendAt a (indexOfKey nodes p.gps) (f s p)) acc)
        acc).flatten →
      x ∈ acc.flatten ∨ ∃ s ∈ strikes, ∃ p ∈ s.packet_list, x = f s p := by
  intro strikes
  induction strikes with
  | nil => intro acc x h; exact Or.inl h
  | cons s rest ih =>
    intro acc x h
    rw [List.foldl_cons] at h
    rcases ih _ x h with h' | h'
    · rcases packetFold_mem f nodes s s.packet_list acc x h' with h'' | h''
      · exact Or.inl h''
      · obtain ⟨p, hp, hxp⟩ := h''
        exact Or.inr ⟨s, by simp, p, hp, hxp⟩
    · obtain ⟨t, ht, p, hp, hxp⟩ := h'
      exact Or.inr ⟨t, by simp [ht], p, hp, hxp⟩

lemma flatten_empty_lists {α : Type} (nodes : List (ℚ × ℚ)) (x : α)
    (h : x ∈ (nodes.map (fun _ => ([] : List α))).flatten) : False := by
  rw [List.mem_flatten] at h
  obtain ⟨t, ht, hxt⟩ := h
  rw [List.mem_map] at ht
  obtain ⟨-, -, ht⟩ := ht
  rw [← ht] at hxt
  simp at hxt

/-- C5 counterexample: a single record at `1970-01-05T00:00:00Z`
(epoch `345600`, `day = 5`).  The cumulative series entry produced by
`generate_scatter` has time coordinate
`trip_time = 0 + 5*86400 = 432000`, whereas the seconds elapsed since
the dataset's start (the first record's time) are `0`. -/
theorem scatter_cum_offset_cex :
    (identifyStrikes false [Record.mk 345600 5 0 0 0 2 3 10]).map
        (fun st => totTm (readNodes [Record.mk 345600 5 0 0 0 2 3 10])
          st.strikes) = some [[432000]] ∧
      (432000 : ℚ) ≠ (Record.mk 345600 5 0 0 0 2 3 10).ep -
        (Record.mk 345600 5 0 0 0 2 3 10).ep := by
  constructor
  · norm_num [identifyStrikes, runCluster, clusterStep, appendLast,
      initState, STRIKE_TIME, Record.packet, Packet.make,
      Packet.is_disturber, Record.strike, totTm, seriesOf, appendAt,
      readNodes, registerNodes, indexOfKey, Record.gps, Packet.gps,
      dayTime, tripTime, List.set]
  · norm_num

/-- C5 amended.  Every entry appended to the cumulative per-node time
series carries time coordinate `trip_time`, i.e. the strike anchor's
seconds-since-midnight plus `86400` times its day-of-month — an offset
from the month's notional day `0`, not seconds since the dataset's
start; every daily series entry carries `day_time`, the strike anchor's
seconds since that day's midnight. -/
theorem scatter_time_offsets (nodes : List (ℚ × ℚ))
    (strikes : List Strike) :
    (∀ t ∈ (totTm nodes strikes).flatten,
      ∃ s ∈ strikes, t = dayTime s + s.day * 86400) ∧
    (∀ t ∈ (dailyTm nodes strikes).flatten,
      ∃ s ∈ strikes, t = dayTime s) := by
  constructor
  · intro t ht
    rcases seriesOf_mem (fun s _ => tripTime s) nodes strikes _ t ht
      with h | h
    · exact absurd h (fun hc => flatten_empty_lists nodes t hc)
    · obtain ⟨s, hs, p, hp, hts⟩ := h
      exact ⟨s, hs, hts⟩
  · intro t ht
    rcases seriesOf_mem (fun s _ => dayTime s) nodes strikes _ t ht
      with h | h
    · exact absurd h (fun hc => flatten_empty_lists nodes t hc)
    · obtain ⟨s, hs, p, hp, hts⟩ := h
      exact ⟨s, hs, hts⟩

/-- Witness for the amended C5: the single produced cumulative entry
`432000` equals the strike's `day_time + day*86400`. -/
theorem scatter_time_offsets_witness :
    ∃ s ∈ [Strike.mk 345600 5 0 0 0 [Packet.mk 2 3 10]],
      432000 = dayTime s + s.day * 86400 :=
  (scatter_time_offsets [(2, 3)]
      [Strike.mk 345600 5 0 0 0 [Packet.mk 2 3 10]]).1 432000
    (by norm_num [totTm, seriesOf, appendAt, indexOfKey, Packet.gps,
      dayTime, tripTime, List.set])
